import Mathlib

/-!
Verification of the text-to-speech core of the homekube repository.

This file gives a shallow embedding, in Lean 4, of the pure logic of the
TTS service: the phoneme vocabulary and tokenizer, the voice-embedding
store (load and lookup), the synthesize entry point, the sentence
splitter, the word-timing estimator, the WebSocket session buffering and
sentence-counter state machine, and the speed-field validation of the
batch endpoint. Theorems below settle the testable properties stated in
the specification against these definitions.

Modelling conventions:
- Machine 32-bit floats that are only moved around (audio samples, style
  vectors, the speed knob) are represented by their 32-bit pattern as a
  natural number, wrapped in the structure F32 below. Their numeric value
  is never inspected by the code under verification.
- The f64 arithmetic of the word-timing estimator is modelled by an
  executable IEEE-754 binary64 semantics over the naturals: every cast
  and every arithmetic operation rounds to nearest with ties to even,
  with subnormals, overflow to infinity and NaN, and the Rust cast of a
  nonnegative f64 to u32 truncates, saturates at the u32 maximum and
  sends NaN to 0; u32 additions wrap modulo 2 to the power 32.
- Rust functions returning Result are modelled with Except; a reachable
  Rust panic is modelled as a distinguished Except.error value.
- The external ONNX inference call and the external espeak phonemizer
  are oracles: they are universally quantified function parameters.
-/

/-- A 32-bit IEEE-754 pattern, kept opaque: the services under
verification never branch on the numeric value of a sample. -/
structure F32 where
  bits : Nat
deriving DecidableEq, Repr

/-- Rust char.is_whitespace: the Unicode White_Space property.
Used by str::trim, str::trim_end and str::split_whitespace. -/
def isRustWs (c : Char) : Bool :=
  (0x9 ≤ c.toNat && c.toNat ≤ 0xD) || c.toNat = 0x20 || c.toNat = 0x85 ||
  c.toNat = 0xA0 || c.toNat = 0x1680 ||
  (0x2000 ≤ c.toNat && c.toNat ≤ 0x200A) ||
  c.toNat = 0x2028 || c.toNat = 0x2029 || c.toNat = 0x202F ||
  c.toNat = 0x205F || c.toNat = 0x3000

/-- Rust str::trim on a list of chars: drop Unicode whitespace from both
ends. -/
def trimChars (l : List Char) : List Char :=
  ((l.dropWhile isRustWs).reverse.dropWhile isRustWs).reverse

/-- Rust str::trim_end on a list of chars: drop Unicode whitespace from
the right end only. -/
def trimEndChars (l : List Char) : List Char :=
  (l.reverse.dropWhile isRustWs).reverse

/-- The phoneme-to-token table of build_vocab in inference.rs, entry for
entry. Keys are IPA characters, values the non-contiguous model token
ids. -/
def vocabEntries : List (Char × Int) :=
  [ (';', 1), (':', 2), (',', 3), ('.', 4), ('!', 5), ('?', 6),
    ('—', 9), ('…', 10),
    ('"', 11),
    ('(', 12), (')', 13),
    ('“', 14), ('”', 15),
    (' ', 16),
    ('̃', 17), ('ʣ', 18), ('ʥ', 19), ('ʦ', 20),
    ('ʨ', 21), ('ᵝ', 22), ('ꭧ', 23),
    ('A', 24), ('I', 25), ('O', 31), ('Q', 33), ('S', 35), ('T', 36),
    ('W', 39), ('Y', 41), ('ᵊ', 42),
    ('a', 43), ('b', 44), ('c', 45), ('d', 46), ('e', 47), ('f', 48),
    ('h', 50), ('i', 51), ('j', 52), ('k', 53), ('l', 54), ('m', 55),
    ('n', 56), ('o', 57), ('p', 58), ('q', 59), ('r', 60), ('s', 61),
    ('t', 62), ('u', 63), ('v', 64), ('w', 65), ('x', 66), ('y', 67),
    ('z', 68),
    ('ɑ', 69), ('ɐ', 70), ('ɒ', 71), ('æ', 72),
    ('β', 75), ('ɔ', 76), ('ɕ', 77), ('ç', 78),
    ('ɖ', 80), ('ð', 81), ('ʤ', 82), ('ə', 83),
    ('ɚ', 85), ('ɛ', 86), ('ɜ', 87), ('ɟ', 90),
    ('ɡ', 92), ('ɥ', 99), ('ɨ', 101), ('ɪ', 102),
    ('ʝ', 103), ('ɯ', 110), ('ɰ', 111), ('ŋ', 112),
    ('ɳ', 113), ('ɲ', 114), ('ɴ', 115), ('ø', 116),
    ('ɸ', 118), ('θ', 119), ('œ', 120), ('ɹ', 123),
    ('ɾ', 125), ('ɻ', 126), ('ʁ', 128), ('ɽ', 129),
    ('ʂ', 130), ('ʃ', 131), ('ʈ', 132), ('ʧ', 133),
    ('ʊ', 135), ('ʋ', 136), ('ʌ', 138), ('ɣ', 139),
    ('ɤ', 140), ('χ', 142), ('ʎ', 143), ('ʒ', 147),
    ('ʔ', 148),
    ('ˈ', 156), ('ˌ', 157), ('ː', 158), ('ʰ', 162),
    ('ʲ', 164),
    ('↓', 169), ('→', 171), ('↗', 172), ('↘', 173),
    ('ᵻ', 177) ]

/-- Vocabulary lookup: the HashMap built by build_vocab, whose keys are
pairwise distinct, behaves as association-list lookup on the entry
table. -/
def vocabLookup (c : Char) : Option Int :=
  vocabEntries.lookup c

/-- phonemes_to_tokens of inference.rs: push the start sentinel 0, then
the id of every character found in the vocabulary (unknown characters
are skipped), then the end sentinel 0. -/
def phonemes_to_tokens (vocab : Char → Option Int) (phonemes : List Char) :
    List Int :=
  0 :: (phonemes.filterMap vocab ++ [0])

/-- Decode a little-endian 32-bit word from four bytes, giving the bit
pattern of one f32 of the NPY payload. -/
def f32FromBytes (b0 b1 b2 b3 : Nat) : F32 :=
  ⟨b0 + 256 * b1 + 65536 * b2 + 16777216 * b3⟩

/-- The f32 read loop of parse_npy_f32: num_floats is the byte count
divided by four, so up to three trailing bytes are dropped. -/
def bytesToF32s : List Nat → List F32
  | b0 :: b1 :: b2 :: b3 :: rest => f32FromBytes b0 b1 b2 b3 :: bytesToF32s rest
  | _ => []

/-- parse_npy_f32 of inference.rs over a byte list (bytes as naturals
below 256): check the magic, read the version-dependent header length,
check the header fits, then decode the remaining bytes as little-endian
f32 values. -/
def parse_npy_f32 (data : List Nat) : Except String (List F32) :=
  if data.length < 10 then .error "NPY file too short"
  else if decide (data.take 6 ≠ [147, 78, 85, 77, 80, 89]) then
    .error "Invalid NPY magic number"
  else
    let major := data.getD 6 0
    if major = 1 then
      let headerLen := data.getD 8 0 + 256 * data.getD 9 0
      if 10 + headerLen > data.length then
        .error "NPY header extends beyond file"
      else .ok (bytesToF32s (data.drop (10 + headerLen)))
    else
      if data.length < 12 then .error "NPY v2 file too short for header"
      else
        let headerLen := data.getD 8 0 + 256 * data.getD 9 0 +
          65536 * data.getD 10 0 + 16777216 * data.getD 11 0
        if 12 + headerLen > data.length then
          .error "NPY header extends beyond file"
        else .ok (bytesToF32s (data.drop (12 + headerLen)))

/-- The voice bank: association list from voice name to style matrix,
standing for the HashMap of VoiceEmbeddings. -/
abbrev VoiceBank := List (String × List (List F32))

/-- HashMap::insert semantics on the association list: replace the value
when the key is already present, append otherwise. -/
def bankInsert (bank : VoiceBank) (k : String) (v : List (List F32)) :
    VoiceBank :=
  if bank.any (fun p => p.1 = k) then
    bank.map (fun p => if p.1 = k then (k, v) else p)
  else bank ++ [(k, v)]

/-- The reshape loop of VoiceEmbeddings::load: cut the flat float list
into num_positions rows of EMBEDDING_DIM entries, where num_positions is
the total float count divided by 256; a partial trailing chunk is
dropped. -/
def chunkRows (floats : List F32) : List (List F32) :=
  (List.range (floats.length / 256)).map
    (fun pos => (floats.drop (pos * 256)).take 256)

/-- Strip a .npy suffix from a ZIP entry name to obtain the voice name,
as in VoiceEmbeddings::load. Spelled on the character list so that it
reduces definitionally on concrete names. -/
def stripNpySuffix (name : String) : String :=
  if name.data.reverse.take 4 = ['y', 'p', 'n', '.'] then
    ⟨(name.data.reverse.drop 4).reverse⟩
  else name

/-- The entry loop of VoiceEmbeddings::load: parse each NPY payload and
insert the reshaped matrix; a parse failure propagates and aborts the
whole load. -/
def loadVoicesAux : List (String × List Nat) → VoiceBank →
    Except String VoiceBank
  | [], acc => .ok acc
  | (name, npyData) :: rest, acc =>
    let voiceName := stripNpySuffix name
    match parse_npy_f32 npyData with
    | .error e =>
      .error ("Failed to parse NPY for " ++ voiceName ++ ": " ++ e)
    | .ok floats => loadVoicesAux rest (bankInsert acc voiceName (chunkRows floats))

/-- VoiceEmbeddings::load over the list of ZIP entries (name, bytes). -/
def VoiceEmbeddings.load (entries : List (String × List Nat)) :
    Except String VoiceBank :=
  loadVoicesAux entries []

/-- VoiceEmbeddings::get: look the voice up, then return the style row
at index min tokenLen (rows - 1). On an empty matrix the Rust code
panics (usize underflow, or index out of bounds on the empty vector);
the panic is modelled as an error value. -/
def VoiceEmbeddings.get (bank : VoiceBank) (voice : String)
    (tokenLen : Nat) : Except String (Option (List F32)) :=
  match bank.lookup voice with
  | none => .ok none
  | some matrix =>
    if matrix.isEmpty then
      .error "panic: index out of bounds on empty style matrix"
    else .ok (some (matrix.getD (min tokenLen (matrix.length - 1)) []))

/-- A concrete bank with one voice and the documented 510-row shape,
used to instantiate the clamping theorem. -/
def bank510 : VoiceBank := [("af_heart", List.replicate 510 [⟨0⟩])]

/-- A blob whose single entry is a minimal valid NPY v1 file with an
empty data section: it parses to zero floats, hence a zero-row matrix. -/
def tinyNpyBlob : List (String × List Nat) :=
  [("tiny.npy", [147, 78, 85, 77, 80, 89, 1, 0, 0, 0])]

/-- A blob whose single entry is a valid NPY v1 file with 1024 zero data
bytes: 256 floats, hence one full 256-entry row. -/
def goodNpyBlob : List (String × List Nat) :=
  [("v.npy", [147, 78, 85, 77, 80, 89, 1, 0, 0, 0] ++ List.replicate 1024 0)]

/-- Maximum number of style token positions in voice embeddings. -/
def MAX_STYLE_TOKENS : Nat := 510

/-- The failure cases of KokoroModel::synthesize. The Rust code returns
formatted strings; each constructor stands for one of them, keeping its
data. The panic constructor models the reachable index panic inside the
style lookup. -/
inductive SynthError where
  | inputTooLong (seqLen : Nat)
  | unknownVoice (voice : String)
  | panic (msg : String)
deriving DecidableEq, Repr

/-- KokoroModel::synthesize up to the external ONNX call: tokenize,
enforce the length bounds, fetch the style row, then hand tokens, style
and speed to the inference oracle. -/
def synthesize (bank : VoiceBank)
    (infer : List Int → List F32 → F32 → List F32)
    (phonemes : String) (voice : String) (speed : F32) :
    Except SynthError (List F32) :=
  if (phonemes_to_tokens vocabLookup phonemes.data).length < 3 then .ok []
  else if (phonemes_to_tokens vocabLookup phonemes.data).length >
      MAX_STYLE_TOKENS then
    .error (.inputTooLong (phonemes_to_tokens vocabLookup phonemes.data).length)
  else
    match VoiceEmbeddings.get bank voice
        (phonemes_to_tokens vocabLookup phonemes.data).length with
    | .error msg => .error (.panic msg)
    | .ok none => .error (.unknownVoice voice)
    | .ok (some emb) =>
      .ok (infer (phonemes_to_tokens vocabLookup phonemes.data) emb speed)

/-- ASCII decimal digit test. -/
def isAsciiDigit (c : Char) : Bool :=
  48 ≤ c.toNat && c.toNat ≤ 57

/-- ASCII lowercasing, used for the case-insensitive inf and nan words
of the Rust float grammar. -/
def asciiLower (c : Char) : Char :=
  if 65 ≤ c.toNat && c.toNat ≤ 90 then Char.ofNat (c.toNat + 32) else c

/-- Drop one optional leading plus or minus sign. -/
def stripSignChars : List Char → List Char
  | c :: r => if c = '+' || c = '-' then r else c :: r
  | [] => []

/-- Numeric value of a digit run. -/
def digitsVal (l : List Char) : Nat :=
  l.foldl (fun a c => 10 * a + (c.toNat - 48)) 0

/-- The exponent part of the Rust f32 grammar: empty, or e or E, an
optional sign and a nonempty digit run, consuming the whole rest. -/
def parseExpVal (l : List Char) : Option Int :=
  match l with
  | [] => some 0
  | c :: r =>
    if c = 'e' || c = 'E' then
      let neg : Bool := match r with
        | c2 :: _ => c2 = '-'
        | [] => false
      let r2 := stripSignChars r
      if decide (r2 ≠ []) && r2.all isAsciiDigit then
        some (if neg then -(digitsVal r2 : Int) else (digitsVal r2 : Int))
      else none
    else none

/-- The number part of the Rust f32 grammar after the sign: a digit run,
an optional dot and second digit run with at least one digit in total,
then the exponent part. Returns the integer digits, fraction digits and
exponent. -/
def parseDecimalParts (l : List Char) :
    Option (List Char × List Char × Int) :=
  let d1 := l.takeWhile isAsciiDigit
  let r1 := l.dropWhile isAsciiDigit
  match r1 with
  | '.' :: r1t =>
    let d2 := r1t.takeWhile isAsciiDigit
    let r2 := r1t.dropWhile isAsciiDigit
    if decide (d1 ≠ []) || decide (d2 ≠ []) then
      (parseExpVal r2).map (fun e => (d1, d2, e))
    else none
  | _ =>
    if decide (d1 ≠ []) then (parseExpVal r1).map (fun e => (d1, [], e))
    else none

/-- Whether str::parse::<f32> succeeds on s: the documented grammar is
an optional sign followed by inf, infinity or nan case-insensitively, or
by a decimal number with optional fraction and exponent. Overflowing
magnitudes still parse (to an infinity), so success is exactly a grammar
match. -/
def rustF32ParseOk (s : String) : Bool :=
  let l := stripSignChars s.data
  let low := l.map asciiLower
  low = ['i', 'n', 'f'] ||
  low = ['i', 'n', 'f', 'i', 'n', 'i', 't', 'y'] ||
  low = ['n', 'a', 'n'] ||
  (parseDecimalParts l).isSome

/-- Modelled from the spec: the phrase parses as a finite float of the
contract of POST /generate. A spelling is finite when it matches the
number grammar (not the inf, infinity or nan words) and its exact
decimal magnitude lies below the f32 round-to-infinity cutoff. -/
def specF32FiniteSpelling (s : String) : Bool :=
  let l := stripSignChars s.data
  let low := l.map asciiLower
  if low = ['i', 'n', 'f'] ||
      low = ['i', 'n', 'f', 'i', 'n', 'i', 't', 'y'] ||
      low = ['n', 'a', 'n'] then false
  else
    match parseDecimalParts l with
    | none => false
    | some (d1, d2, e) =>
      let k : Int := e - d2.length
      if 0 ≤ k then
        decide (digitsVal (d1 ++ d2) * 10 ^ k.toNat < 2 ^ 128 - 2 ^ 103)
      else
        decide (digitsVal (d1 ++ d2) < (2 ^ 128 - 2 ^ 103) * 10 ^ (-k).toNat)

/-- A POST /generate request after multipart field collection: the three
recognized fields, each possibly absent. -/
structure GenRequest where
  textFile : Option (List Nat)
  speed : Option String
  voice : Option String

/-- generate_speech of handlers.rs after multipart parsing: speed
defaults to 1.0 and voice to af_heart, a missing text_file is a 400,
a speed that str::parse::<f32> rejects is a 400, and otherwise a job is
created with those parameters (the UUID, database insert, and worker
dispatch are external effects; the ok value carries the job
parameters). -/
def generate_speech (req : GenRequest) :
    Except (Nat × String) (String × String × List Nat) :=
  let speed := req.speed.getD "1.0"
  let voice := req.voice.getD "af_heart"
  match req.textFile with
  | none => .error (400, "Missing text_file field")
  | some text =>
    if rustF32ParseOk speed = false then
      .error (400, "Invalid speed parameter")
    else .ok (speed, voice, text)

/-- The sentence-ending characters split_sentences splits on: ASCII and
CJK full stops, exclamation and question marks. -/
def isSentencePunct (c : Char) : Bool :=
  c = '.' || c = '!' || c = '?' || c = '。' || c = '！' || c = '？'

/-- The scan loop of split_sentences in phonemizer.rs: push each
character onto the current run; on sentence punctuation, trim the run
and emit it when nonempty; at the end, trim and emit any leftover. -/
def ssGo : List Char → List Char → List (List Char)
  | [], cur =>
    let t := trimChars cur
    if t.isEmpty then [] else [t]
  | c :: r, cur =>
    let cur2 := cur ++ [c]
    if isSentencePunct c then
      let t := trimChars cur2
      if t.isEmpty then ssGo r [] else t :: ssGo r []
    else ssGo r cur2

/-- split_sentences of phonemizer.rs. -/
def split_sentences (s : String) : List String :=
  (ssGo s.data []).map (fun l => ⟨l⟩)

/-- Vec::join with a single space, used on the sentences handed to
handle_synthesize by the append path. -/
def joinSpace : List String → String
  | [] => ""
  | [s] => s
  | s :: s2 :: rest => s ++ " " ++ joinSpace (s2 :: rest)

/-- The buffer-ending check of the synthesize_append arm: trim trailing
whitespace, then test for one of the five terminator characters. -/
def endsWithSentenceTerm (s : String) : Bool :=
  match (trimEndChars s.data).getLast? with
  | some c => c = '.' || c = '!' || c = '?' || c = ':' || c = ';'
  | none => false

/-- The buffering core of the synthesize_append arm of ws_handler.rs:
concatenate, split, and decide what to speak and what to retain. The
first component is the to_speak sentence list, the second the new
pending buffer. -/
def appendStep (pending newText : String) : List String × String :=
  let buf := pending ++ newText
  let ss := split_sentences buf
  if ss.isEmpty then ([], buf)
  else if endsWithSentenceTerm buf then (ss, "")
  else if ss.length > 1 then (ss.dropLast, ss.getLast?.getD "")
  else ([], buf)

/-- str::split_whitespace scan: accumulate non-whitespace runs in
reverse, emitting each completed run. -/
def splitWsGo : List Char → List Char → List (List Char)
  | [], cur => if cur.isEmpty then [] else [cur.reverse]
  | c :: r, cur =>
    if isRustWs c then
      if cur.isEmpty then splitWsGo r [] else cur.reverse :: splitWsGo r []
    else splitWsGo r (c :: cur)

/-- str::split_whitespace over a character list. -/
def splitWs (l : List Char) : List (List Char) := splitWsGo l []

/-- UTF-8 byte length of a word, matching str::len on the word slice. -/
def byteLen (w : List Char) : Nat := (w.map Char.utf8Size).sum

/-- Two to the k as a left shift, which the kernel and elaborator
evaluate directly on literals. -/
def pow2 (k : Nat) : Nat := Nat.shiftLeft 1 k

/-- Fuel-driven base-2 logarithm: for n at least 1 and fuel at least n,
log2F fuel n is the floor of log2 n. The fuel only bounds the recursion
so that the function reduces by kernel computation; 64-bit chunking
keeps the step count proportional to the bit length over 64. -/
def log2F : Nat → Nat → Nat
  | _, 0 => 0
  | _, 1 => 0
  | 0, _ => 0
  | fuel + 1, n + 2 =>
    if pow2 64 ≤ n + 2 then 64 + log2F fuel ((n + 2) / pow2 64)
    else log2F fuel ((n + 2) / 2) + 1

/-- Round the nonnegative rational n over d (d positive) to the nearest
integer, ties to even. -/
def roundNEDiv (n d : Nat) : Nat :=
  let q := n / d
  let r := n % d
  if 2 * r < d then q
  else if d < 2 * r then q + 1
  else if q % 2 = 0 then q else q + 1

/-- Whether 2 to the e is at most n over d. -/
def pow2LeQ (e : Int) (n d : Nat) : Bool :=
  if 0 ≤ e then d * pow2 e.toNat ≤ n else d ≤ n * pow2 (-e).toNat

/-- Whether n over d is below 2 to the e. -/
def qLtPow2 (e : Int) (n d : Nat) : Bool :=
  if 0 ≤ e then n < d * pow2 e.toNat else n * pow2 (-e).toNat < d

/-- Floor of log2 of the positive rational n over d. With a the floor
log2 of n and b that of d, the quotient lies strictly between 2 to the
a minus b minus 1 and 2 to the a minus b plus 1, so the estimate a
minus b is off by at most one; the two guarded adjustments land on the
unique e with 2 to the e at most n over d below 2 to the e plus 1. -/
def floorLog2Q (n d : Nat) : Int :=
  let e0 : Int := (log2F n n : Int) - (log2F d d : Int)
  let e1 : Int := if pow2LeQ (e0 + 1) n d then e0 + 1 else e0
  if qLtPow2 e1 n d then e1 - 1 else e1

/-- A nonnegative IEEE-754 binary64 datum: a finite value m times 2 to
the p, positive infinity, or NaN. Only nonnegative values arise in the
modelled code, so there is no sign. -/
inductive F64 where
  | finite (m : Nat) (p : Int)
  | posInf
  | nan
deriving DecidableEq, Repr

/-- Round the nonnegative rational n over d (d positive) to the nearest
binary64, ties to even: locate the binade, pick the ulp exponent (the
subnormal grid 2 to the minus 1074 below the smallest normal binade),
round the scaled value to the nearest integer with ties to even, and
overflow to infinity when the rounded value reaches 2 to the 1024. -/
def roundPosF64 (n d : Nat) : F64 :=
  if n = 0 then .finite 0 0
  else
    let e := floorLog2Q n d
    let prec : Int := if -1022 ≤ e then e - 52 else -1074
    let m := if 0 ≤ prec then roundNEDiv n (d * pow2 prec.toNat)
      else roundNEDiv (n * pow2 (-prec).toNat) d
    let ovf : Bool := if 0 ≤ prec then pow2 1024 ≤ m * pow2 prec.toNat
      else pow2 (1024 + (-prec).toNat) ≤ m
    if ovf then .posInf else .finite m prec

/-- The Rust cast (x as f64) of an unsigned integer: exact below 2 to
the 53, rounded to nearest even above. -/
def natToF64 (x : Nat) : F64 := roundPosF64 x 1

/-- IEEE-754 binary64 multiplication on nonnegative data: multiply the
exact values and round; infinity times zero is NaN, and NaN is
absorbing. -/
def f64Mul : F64 → F64 → F64
  | .finite m1 p1, .finite m2 p2 =>
    let mm := m1 * m2
    let pp := p1 + p2
    if 0 ≤ pp then roundPosF64 (mm * pow2 pp.toNat) 1
    else roundPosF64 mm (pow2 (-pp).toNat)
  | .finite m _, .posInf => if m = 0 then .nan else .posInf
  | .posInf, .finite m _ => if m = 0 then .nan else .posInf
  | .posInf, .posInf => .posInf
  | .nan, _ => .nan
  | _, .nan => .nan

/-- IEEE-754 binary64 division on nonnegative data: zero over zero and
infinity over infinity are NaN, a positive finite value over zero is
infinity, anything finite over infinity is zero, and the finite case
rounds the exact quotient. -/
def f64Div : F64 → F64 → F64
  | .finite m1 p1, .finite m2 p2 =>
    if m2 = 0 then (if m1 = 0 then .nan else .posInf)
    else if m1 = 0 then .finite 0 0
    else
      let pp := p1 - p2
      if 0 ≤ pp then roundPosF64 (m1 * pow2 pp.toNat) m2
      else roundPosF64 m1 (m2 * pow2 (-pp).toNat)
  | .finite _ _, .posInf => .finite 0 0
  | .posInf, .finite _ _ => .posInf
  | .posInf, .posInf => .nan
  | .nan, _ => .nan
  | _, .nan => .nan

/-- The Rust saturating cast (x as u32) of a nonnegative f64: truncate
toward zero, saturate at the u32 maximum, NaN to 0. -/
def f64CastU32 : F64 → Nat
  | .finite m p =>
    if 0 ≤ p then min (m * pow2 p.toNat) 4294967295
    else min (m / pow2 (-p).toNat) 4294967295
  | .posInf => 4294967295
  | .nan => 0

/-- The expression (total_samples as f64 / sample_rate as f64 * 1000.0)
as u32 of estimate_word_timings, with every operation in IEEE-754
binary64: division by a zero rate gives infinity (NaN for zero samples)
and the cast saturates. -/
def totalMsOf (S R : Nat) : Nat :=
  f64CastU32 (f64Mul (f64Div (natToF64 S) (natToF64 R)) (natToF64 1000))

/-- Duration assigned to one word by estimate_word_timings: total_ms as
f64 times the f64 ratio of word byte length over total byte length,
cast to u32, with every operation in IEEE-754 binary64. -/
def wordDur (totalMs totalChars : Nat) (w : List Char) : Nat :=
  f64CastU32 (f64Mul (natToF64 totalMs)
    (f64Div (natToF64 (byteLen w)) (natToF64 totalChars)))

/-- The accumulation loop of estimate_word_timings: walk the words
keeping the current millisecond position; start is the current
position, end is start plus the word duration in u32 arithmetic. -/
def ewtGo (totalMs totalChars : Nat) :
    List (List Char) → Nat → List (String × Nat × Nat)
  | [], _ => []
  | w :: ws, cur =>
    let d := wordDur totalMs totalChars w
    (⟨w⟩, cur, (cur + d) % 4294967296) ::
      ewtGo totalMs totalChars ws ((cur + d) % 4294967296)

/-- estimate_word_timings of phonemizer.rs: split the text on
whitespace, compute the total duration from sample count and rate, and
assign each word a share proportional to its byte length. The f64
arithmetic is modelled exactly over the rationals. The phoneme argument
is accepted and, as in the source, never used beyond this point. -/
def estimate_word_timings (text : String) (phonemes : String)
    (total_samples : Nat) (sample_rate : Nat) :
    List (String × Nat × Nat) :=
  let words := splitWs text.data
  if words.isEmpty then []
  else
    let totalMs := totalMsOf total_samples sample_rate
    let totalChars := (words.map byteLen).sum
    if totalChars = 0 then []
    else ewtGo totalMs totalChars words 0

/-- Chunking loop with explicit fuel so that it reduces by kernel
computation. -/
def chunkAudioGo : Nat → List F32 → List (List F32)
  | _, [] => []
  | 0, _ => []
  | fuel + 1, c :: l =>
    (c :: l).take 2400 :: chunkAudioGo fuel ((c :: l).drop 2400)

/-- Slice audio into chunks of at most 2400 samples, as
audio.chunks(chunk_samples) with the 100 ms chunk size at 24 kHz: the
fuel, one unit per emitted chunk, is bounded by the sample count since
every step consumes at least one sample. -/
def chunkAudio (l : List F32) : List (List F32) := chunkAudioGo l.length l

/-- Session-visible state of one live WebSocket connection: the
monotonic sentence counter, the pending-text buffer, and the stop
latch of the watch channel (set by stop, never cleared again). -/
structure SessState where
  counter : Nat
  pending : String
  stopped : Bool
deriving DecidableEq, Repr

/-- Client messages of the live session protocol. -/
inductive ClientMsg where
  | synthesize (text voice : String) (speed : F32)
  | synthesizeAppend (text voice : String) (speed : F32)
  | stop
  | auth (token : String)
deriving DecidableEq, Repr

/-- Wire events the session emits: word timing, binary audio chunk and
sentence completion carry the sentence index; done, error and stopped
do not. -/
inductive Event where
  | wordTiming (idx : Nat) (words : List (String × Nat × Nat))
  | audioChunk (idx : Nat) (samples : List F32)
  | sentenceDone (idx : Nat)
  | done
  | errorMsg
  | stoppedMsg
deriving DecidableEq, Repr

/-- The per-sentence loop of handle_synthesize in ws_handler.rs.
Arguments: the phonemizer oracle (the stdout of a successful espeak-ng
run; a phonemizer failure aborts like the synthesis-error case), the
bank and inference oracle, voice, speed, the stop latch observed by
this call, the sentences, and the session counter. Each sentence
consumes one index before any check; the stop latch returns early; an
empty phonemization or empty audio skips the sentence; a synthesis
error emits the error message and aborts; otherwise word timings, the
audio chunks and the completion marker are emitted. After the loop the
done marker is emitted. -/
def hsGo (phonOr : String → String) (bank : VoiceBank)
    (infer : List Int → List F32 → F32 → List F32)
    (voice : String) (speed : F32) (stopped : Bool) :
    List String → Nat → List Event × Nat
  | [], counter => ([Event.done], counter)
  | s :: rest, counter =>
    if stopped then ([], counter + 1)
    else
      let ph := phonOr s
      if ph.data.isEmpty then
        hsGo phonOr bank infer voice speed stopped rest (counter + 1)
      else
        match synthesize bank infer ph voice speed with
        | .error _ => ([Event.errorMsg], counter + 1)
        | .ok audio =>
          if audio.isEmpty then
            hsGo phonOr bank infer voice speed stopped rest (counter + 1)
          else
            let words := estimate_word_timings s ph audio.length 24000
            let p := hsGo phonOr bank infer voice speed stopped rest
              (counter + 1)
            (Event.wordTiming counter words ::
              ((chunkAudio audio).map (fun ch => Event.audioChunk counter ch) ++
                Event.sentenceDone counter :: p.1),
              p.2)

/-- One step of the message loop of handle_connection: full synthesize
resets the counter and the buffer and runs the loop on the fresh split;
synthesize_append runs the buffering core and, when there is something
to speak, the loop on the re-split joined text; stop sets the latch,
clears the buffer and reports stopped; auth after authentication is
ignored. -/
def sessionStep (phonOr : String → String) (bank : VoiceBank)
    (infer : List Int → List F32 → F32 → List F32)
    (st : SessState) : ClientMsg → List Event × SessState
  | .synthesize text voice speed =>
    let p := hsGo phonOr bank infer voice speed st.stopped
      (split_sentences text) 0
    (p.1, ⟨p.2, "", st.stopped⟩)
  | .synthesizeAppend text voice speed =>
    let res := appendStep st.pending text
    if res.1.isEmpty then ([], ⟨st.counter, res.2, st.stopped⟩)
    else
      let p := hsGo phonOr bank infer voice speed st.stopped
        (split_sentences (joinSpace res.1)) st.counter
      (p.1, ⟨p.2, res.2, st.stopped⟩)
  | .stop => ([Event.stoppedMsg], ⟨st.counter, "", true⟩)
  | .auth _ => ([], st)

/-- Run a sequence of synthesize_append messages with one voice and
speed, concatenating the emitted events. -/
def runAppends (phonOr : String → String) (bank : VoiceBank)
    (infer : List Int → List F32 → F32 → List F32)
    (voice : String) (speed : F32) (st : SessState) :
    List String → List Event × SessState
  | [] => ([], st)
  | t :: ts =>
    let p := sessionStep phonOr bank infer st
      (.synthesizeAppend t voice speed)
    let q := runAppends phonOr bank infer voice speed p.2 ts
    (p.1 ++ q.1, q.2)

/-- The sentence index attached to an event, when it carries one. -/
def eventIdx : Event → Option Nat
  | .wordTiming i _ => some i
  | .audioChunk i _ => some i
  | .sentenceDone i => some i
  | _ => none

/-- Indices carried by a list of events, in emission order. -/
def eventIndices (evs : List Event) : List Nat := evs.filterMap eventIdx

/-- The index of a sentence-completion event. -/
def doneIdx : Event → Option Nat
  | .sentenceDone i => some i
  | _ => none

/-- Indices of the sentence-completion events only. -/
def doneIndices (evs : List Event) : List Nat :=
  evs.filterMap doneIdx

/-- Modelled from the spec: the duration the word-timing contract
assigns to a word, proportional to the word character length over the
sum of character lengths, scaled by total_ms equal S times 1000 over R,
in exact arithmetic. -/
def specCharDurationMs (text : String) (totalSamples rate : Nat)
    (w : List Char) : ℚ :=
  ((totalSamples : ℚ) * 1000 / (rate : ℚ)) * (w.length : ℚ) /
    ((((splitWs text.data).map (fun v => v.length)).sum : Nat) : ℚ)

/-- pow2 is exponentiation by two, stated for the reader; the shift
form is used so that concrete values reduce fast by kernel
computation. -/
theorem pow2_eq (k : Nat) : pow2 k = 2 ^ k := by
  have h : Nat.shiftLeft 1 k = 1 <<< k := rfl
  rw [pow2, h, Nat.shiftLeft_eq, Nat.one_mul]

/-- Length of a filterMap equals the count of elements on which the
function hits. -/
theorem length_filterMap_eq_countP (f : α → Option β) (l : List α) :
    (l.filterMap f).length = l.countP (fun a => (f a).isSome) := by
  induction l with
  | nil => rfl
  | cons a l ih =>
    rw [List.filterMap_cons, List.countP_cons]
    cases h : f a with
    | none => simp [h, ih]
    | some b => simp [h, ih]

/-- C2. For every phoneme string p, tokenize p begins with token 0, ends
with token 0, and has length exactly 2 plus the number of code points of
p present in the vocabulary (unknown code points are skipped); the empty
string, and any string all of whose characters are unknown, yield the
bare sentinel pair. -/
theorem C2_tokenizer_framing (p : List Char) :
    (phonemes_to_tokens vocabLookup p).head? = some 0 ∧
    (phonemes_to_tokens vocabLookup p).getLast? = some 0 ∧
    (phonemes_to_tokens vocabLookup p).length =
      2 + p.countP (fun c => (vocabLookup c).isSome) ∧
    phonemes_to_tokens vocabLookup [] = [0, 0] ∧
    ((∀ c ∈ p, vocabLookup c = none) →
      phonemes_to_tokens vocabLookup p = [0, 0]) := by
  refine ⟨rfl, ?_, ?_, rfl, ?_⟩
  · rw [phonemes_to_tokens, List.getLast?_cons, List.getLast?_append]
    rfl
  · rw [phonemes_to_tokens]
    simp only [List.length_cons, List.length_append, List.length_singleton,
      List.length_nil, length_filterMap_eq_countP]
    omega
  · intro h
    rw [phonemes_to_tokens, List.filterMap_eq_nil_iff.mpr h]
    rfl

/-- Witness for C2 at concrete inputs: the scenario strings of the
specification, with a at id 43 and the at-sign unknown. -/
theorem C2_tokenizer_framing_witness :
    (phonemes_to_tokens vocabLookup ['a', '@']).head? = some 0 ∧
    (phonemes_to_tokens vocabLookup ['a', '@']).length = 3 ∧
    phonemes_to_tokens vocabLookup ['@', '@'] = [0, 0] := by
  have h := C2_tokenizer_framing ['a', '@']
  have h2 := C2_tokenizer_framing ['@', '@']
  refine ⟨h.1, ?_, ?_⟩
  · rw [h.2.2.1]; decide
  · exact h2.2.2.2.2 (by decide)

/-- Every row produced by the reshape loop has exactly 256 entries. -/
theorem chunkRows_row_length (floats : List F32) :
    ∀ row ∈ chunkRows floats, row.length = 256 := by
  intro row hrow
  rw [chunkRows] at hrow
  obtain ⟨pos, hpos, heq⟩ := List.mem_map.mp hrow
  rw [List.mem_range] at hpos
  subst heq
  have h1 : (pos + 1) * 256 ≤ (floats.length / 256) * 256 :=
    Nat.mul_le_mul_right 256 hpos
  have h2 : (floats.length / 256) * 256 ≤ floats.length :=
    Nat.div_mul_le_self _ _
  rw [List.length_take, List.length_drop]
  omega

/-- Membership after a HashMap-style insert: the pair is the inserted
one or was already in the bank. -/
theorem mem_bankInsert {bank : VoiceBank} {k : String}
    {v : List (List F32)} {p : String × List (List F32)}
    (h : p ∈ bankInsert bank k v) : p = (k, v) ∨ p ∈ bank := by
  rw [bankInsert] at h
  by_cases hc : bank.any (fun q => q.1 = k)
  · rw [if_pos hc] at h
    obtain ⟨q, hq, hqe⟩ := List.mem_map.mp h
    by_cases hk : q.1 = k
    · rw [if_pos hk] at hqe; exact Or.inl hqe.symm
    · rw [if_neg hk] at hqe; exact Or.inr (hqe ▸ hq)
  · rw [if_neg hc] at h
    rcases List.mem_append.mp h with h1 | h1
    · exact Or.inr h1
    · exact Or.inl (List.mem_singleton.mp h1)

/-- Invariant of the load loop: every row of every matrix in the result
has exactly 256 entries. -/
theorem loadVoicesAux_rows (entries : List (String × List Nat)) :
    ∀ acc bank, loadVoicesAux entries acc = .ok bank →
    (∀ p ∈ acc, ∀ row ∈ p.2, row.length = 256) →
    ∀ p ∈ bank, ∀ row ∈ p.2, row.length = 256 := by
  induction entries with
  | nil =>
    intro acc bank h hacc
    rw [loadVoicesAux] at h
    cases h
    exact hacc
  | cons e rest ih =>
    intro acc bank h hacc
    obtain ⟨name, npyData⟩ := e
    rw [loadVoicesAux] at h
    cases hp : parse_npy_f32 npyData with
    | error msg => rw [hp] at h; cases h
    | ok floats =>
      rw [hp] at h
      refine ih _ _ h ?_
      intro p hpmem row hrow
      rcases mem_bankInsert hpmem with h1 | h1
      · subst h1
        exact chunkRows_row_length floats row hrow
      · exact hacc p h1 row hrow

/-- A successful association-list lookup pairs the key with a member of
the list. -/
theorem lookup_mem {l : List (String × α)} {k : String} {v : α}
    (h : l.lookup k = some v) : (k, v) ∈ l := by
  induction l with
  | nil => cases h
  | cons p rest ih =>
    obtain ⟨pk, pv⟩ := p
    simp only [List.lookup] at h
    split at h
    · cases h
      rename_i hbeq
      have hk : k = pk := beq_iff_eq.mp hbeq
      subst hk
      exact List.mem_cons_self _ _
    · exact List.mem_cons_of_mem _ (ih h)

/-- C6. For every voice v present in the voice bank with the 510-row
style matrix shape the loader documents, get v n returns row
min n 509 of the style matrix; in particular for every n at least 510,
get v n equals get v 509. -/
theorem C6_voice_index_clamping (bank : VoiceBank) (v : String)
    (M : List (List F32)) (n : Nat)
    (hM : bank.lookup v = some M) (hlen : M.length = 510) :
    VoiceEmbeddings.get bank v n = .ok (some (M.getD (min n 509) [])) ∧
    (510 ≤ n →
      VoiceEmbeddings.get bank v n = VoiceEmbeddings.get bank v 509) := by
  have hne : M.isEmpty = false := by
    cases M with
    | nil => simp at hlen
    | cons a l => rfl
  constructor
  · simp only [VoiceEmbeddings.get, hM, hne, Bool.false_eq_true, if_false,
      hlen]
  · intro hn
    simp only [VoiceEmbeddings.get, hM, hne, Bool.false_eq_true, if_false,
      hlen]
    have h1 : min n 509 = 509 := Nat.min_eq_right (by omega)
    have h2 : min 509 509 = 509 := Nat.min_self 509
    rw [h1, h2]

set_option maxRecDepth 20000 in
/-- Witness for C6: scenario S5 of the specification, get af_heart 999
equals get af_heart 509 on a 510-row bank. -/
theorem C6_voice_index_clamping_witness :
    VoiceEmbeddings.get bank510 "af_heart" 999 =
      VoiceEmbeddings.get bank510 "af_heart" 509 :=
  (C6_voice_index_clamping bank510 "af_heart"
    (List.replicate 510 [⟨0⟩]) 999 rfl (by simp)).2 (by omega)

set_option maxRecDepth 20000 in
/-- Counterexample to C7: loading a blob whose voice matrix has a row
count different from 510 succeeds and keeps the voice in the bank (with
zero rows), instead of rejecting that voice. -/
theorem C7_counterexample :
    VoiceEmbeddings.load tinyNpyBlob = .ok [("tiny", [])] ∧
    ([("tiny", ([] : List (List F32)))].lookup "tiny") = some [] ∧
    ([] : List (List F32)).length ≠ 510 :=
  ⟨rfl, rfl, by decide⟩

/-- C7 amended: the loader performs no shape validation. Every entry
whose NPY payload parses is kept, with total-floats-divided-by-256 rows
(a partial trailing chunk dropped), and a parse failure aborts the whole
load rather than skipping the voice. What does hold of every loaded
bank is that every row of every voice matrix has exactly 256 entries. -/
theorem C7_loaded_rows_are_256 (entries : List (String × List Nat))
    (bank : VoiceBank) (h : VoiceEmbeddings.load entries = .ok bank) :
    ∀ p ∈ bank, ∀ row ∈ p.2, row.length = 256 :=
  loadVoicesAux_rows entries [] bank h (by intro p hp; cases hp)

set_option maxRecDepth 20000 in
/-- Witness for amended C7 at a concrete blob: the row loaded from 1024
data bytes has exactly 256 entries. -/
theorem C7_loaded_rows_are_256_witness :
    (List.replicate 256 (⟨0⟩ : F32)).length = 256 :=
  C7_loaded_rows_are_256 goodNpyBlob [("v", [List.replicate 256 ⟨0⟩])] rfl
    ("v", [List.replicate 256 ⟨0⟩]) (by simp)
    (List.replicate 256 ⟨0⟩) (by simp)

/-- C10. On any loaded bank, get returns none-success for an absent
voice, and for a present voice with at least one row it returns a style
vector of exactly 256 floats, totally, for every token length. The
at-least-one-row precondition is necessary: load accepts NPY payloads of
any size, and a loadable bank exists on which get hits the empty-matrix
panic. -/
theorem C10_get_totality (entries : List (String × List Nat))
    (bank : VoiceBank) (v : String) (n : Nat)
    (h : VoiceEmbeddings.load entries = .ok bank) :
    (bank.lookup v = none → VoiceEmbeddings.get bank v n = .ok none) ∧
    (∀ M, bank.lookup v = some M → M ≠ [] →
      ∃ row, VoiceEmbeddings.get bank v n = .ok (some row) ∧
        row.length = 256) ∧
    (∃ entries2 bank2 v2 e,
      VoiceEmbeddings.load entries2 = .ok bank2 ∧
      bank2.lookup v2 = some [] ∧
      VoiceEmbeddings.get bank2 v2 n = .error e) := by
  refine ⟨?_, ?_, ?_⟩
  · intro hnone
    simp only [VoiceEmbeddings.get, hnone]
  · intro M hM hMne
    have hrows := loadVoicesAux_rows entries [] bank h
      (by intro p hp; cases hp) (v, M) (lookup_mem hM)
    have hlen : M.length ≠ 0 := fun hz => hMne (List.length_eq_zero.mp hz)
    have hne : M.isEmpty = false := by
      cases M with
      | nil => exact absurd rfl hMne
      | cons a l => rfl
    have hlt : min n (M.length - 1) < M.length :=
      Nat.lt_of_le_of_lt (Nat.min_le_right _ _) (by omega)
    refine ⟨M.getD (min n (M.length - 1)) [], ?_, ?_⟩
    · simp only [VoiceEmbeddings.get, hM, hne, Bool.false_eq_true, if_false]
    · apply hrows
      rw [List.getD_eq_getElem _ _ hlt]
      exact List.getElem_mem hlt
  · exact ⟨tinyNpyBlob, [("tiny", [])], "tiny", _, rfl, rfl, rfl⟩

set_option maxRecDepth 20000 in
/-- Witness for C10 on the concrete one-voice bank loaded from
goodNpyBlob: an absent voice gives none-success, the present voice gives
a 256-entry style vector. -/
theorem C10_get_totality_witness :
    VoiceEmbeddings.get [("v", [List.replicate 256 (⟨0⟩ : F32)])]
      "absent" 7 = .ok none ∧
    ∃ row, VoiceEmbeddings.get [("v", [List.replicate 256 (⟨0⟩ : F32)])]
      "v" 7 = .ok (some row) ∧ row.length = 256 := by
  have h1 := C10_get_totality goodNpyBlob
    [("v", [List.replicate 256 ⟨0⟩])] "absent" 7 rfl
  have h2 := C10_get_totality goodNpyBlob
    [("v", [List.replicate 256 ⟨0⟩])] "v" 7 rfl
  exact ⟨h1.1 rfl, h2.2.1 [List.replicate 256 ⟨0⟩] rfl (by simp)⟩

/-- C1. For every phonemes string, voice and speed: synthesize returns
an empty sample array as success whenever the tokenized length is below
3; it fails with the input-too-long error whenever the tokenized length
exceeds 510; and otherwise, whenever the voice is not in the bank, it
fails with the unknown-voice error. -/
theorem C1_synthesize_guards (bank : VoiceBank)
    (infer : List Int → List F32 → F32 → List F32)
    (p voice : String) (speed : F32) :
    ((phonemes_to_tokens vocabLookup p.data).length < 3 →
      synthesize bank infer p voice speed = .ok []) ∧
    ((phonemes_to_tokens vocabLookup p.data).length > 510 →
      synthesize bank infer p voice speed =
        .error (.inputTooLong (phonemes_to_tokens vocabLookup p.data).length)) ∧
    (3 ≤ (phonemes_to_tokens vocabLookup p.data).length →
      (phonemes_to_tokens vocabLookup p.data).length ≤ 510 →
      bank.lookup voice = none →
      synthesize bank infer p voice speed =
        .error (.unknownVoice voice)) := by
  refine ⟨?_, ?_, ?_⟩
  · intro h
    rw [synthesize, if_pos h]
  · intro h
    rw [synthesize, if_neg (by omega), if_pos (by rw [MAX_STYLE_TOKENS]; omega)]
  · intro h1 h2 hnone
    rw [synthesize, if_neg (by omega), if_neg (by rw [MAX_STYLE_TOKENS]; omega)]
    have hget : VoiceEmbeddings.get bank voice
        (phonemes_to_tokens vocabLookup p.data).length = .ok none := by
      simp only [VoiceEmbeddings.get, hnone]
    rw [hget]

set_option maxRecDepth 20000 in
/-- Witness for C1: the empty phoneme string yields empty audio, a run
of 511 tokens yields the input-too-long error, and a valid-length input
against an empty bank yields the unknown-voice error. -/
theorem C1_synthesize_guards_witness :
    synthesize [] (fun _ _ _ => []) "" "v" ⟨0⟩ = .ok [] ∧
    synthesize [] (fun _ _ _ => []) ⟨List.replicate 509 'a'⟩ "v" ⟨0⟩ =
      .error (.inputTooLong 511) ∧
    synthesize [] (fun _ _ _ => []) "a" "v" ⟨0⟩ =
      .error (.unknownVoice "v") := by
  have h1 := C1_synthesize_guards [] (fun _ _ _ => []) "" "v" ⟨0⟩
  have h2 := C1_synthesize_guards [] (fun _ _ _ => [])
    ⟨List.replicate 509 'a'⟩ "v" ⟨0⟩
  have h3 := C1_synthesize_guards [] (fun _ _ _ => []) "a" "v" ⟨0⟩
  have hlen : (phonemes_to_tokens vocabLookup
      (String.mk (List.replicate 509 'a')).data).length = 511 := by
    decide
  refine ⟨h1.1 (by decide), ?_, h3.2.2 (by decide) (by decide) rfl⟩
  have := h2.2.1 (by rw [hlen]; omega)
  rw [hlen] at this
  exact this

/-- Counterexample to C8: the spelling inf does not parse as a finite
float, yet the endpoint accepts the request and creates a job, because
the code only checks that str::parse::<f32> succeeds and that parser
accepts infinities. -/
theorem C8_counterexample :
    specF32FiniteSpelling "inf" = false ∧
    generate_speech ⟨some [72], some "inf", none⟩ =
      .ok ("inf", "af_heart", [72]) :=
  ⟨by decide, rfl⟩

/-- C8 amended: POST /generate rejects with 400 exactly those requests
whose speed field fails the Rust f32 parse grammar; non-finite spellings
such as inf or nan parse successfully and do create a job. On parse
failure no job is created, the status is 400 and the body mentions
speed, in particular for the spelling not_a_number of scenario S7. -/
theorem C8_speed_parse_validation (req : GenRequest) (t : List Nat)
    (ht : req.textFile = some t) :
    (rustF32ParseOk (req.speed.getD "1.0") = false →
      generate_speech req = .error (400, "Invalid speed parameter")) ∧
    (rustF32ParseOk (req.speed.getD "1.0") = true →
      generate_speech req =
        .ok (req.speed.getD "1.0", req.voice.getD "af_heart", t)) ∧
    generate_speech ⟨some t, some "not_a_number", req.voice⟩ =
      .error (400, "Invalid speed parameter") ∧
    ∃ pre post, ("Invalid speed parameter").data =
      pre ++ ("speed").data ++ post := by
  refine ⟨?_, ?_, ?_, "Invalid ".data, " parameter".data, by decide⟩
  · intro h
    rw [generate_speech, ht]
    simp only [h, if_pos]
  · intro h
    rw [generate_speech, ht]
    simp only [h, Bool.true_eq_false, if_false]
  · rw [generate_speech]
    simp only [Option.getD_some]
    have h : rustF32ParseOk "not_a_number" = false := by decide
    simp only [h, if_pos]

/-- Witness for amended C8: a wellformed speed of 1.5 creates a job,
the unparsable speed string from scenario S7 is rejected with 400. -/
theorem C8_speed_parse_validation_witness :
    generate_speech ⟨some [72], some "1.5", none⟩ =
      .ok ("1.5", "af_heart", [72]) ∧
    generate_speech ⟨some [72], some "not_a_number", none⟩ =
      .error (400, "Invalid speed parameter") := by
  have h := C8_speed_parse_validation ⟨some [72], some "1.5", none⟩ [72] rfl
  exact ⟨h.2.1 (by decide), h.2.2.1⟩

/-- A list whose members include one that fails the predicate survives
dropWhile. -/
theorem mem_dropWhile_of_mem {p : α → Bool} {l : List α} {a : α}
    (h : a ∈ l) (ha : p a = false) : a ∈ l.dropWhile p := by
  have hsplit : l.takeWhile p ++ l.dropWhile p = l :=
    List.takeWhile_append_dropWhile p l
  rcases List.mem_append.mp (by rw [hsplit]; exact h) with h1 | h1
  · have := List.mem_takeWhile_imp h1
    rw [ha] at this
    cases this
  · exact h1

/-- A nonempty list is not isEmpty. -/
theorem isEmpty_eq_false_of_ne_nil {l : List α} (h : l ≠ []) :
    l.isEmpty = false := by
  cases l with
  | nil => exact absurd rfl h
  | cons a r => rfl

/-- Trimming keeps any non-whitespace member, so the trim of a list
containing one is nonempty. -/
theorem trimChars_ne_nil {l : List Char} {c : Char} (hc : c ∈ l)
    (hw : isRustWs c = false) : trimChars l ≠ [] := by
  intro hnil
  rw [trimChars] at hnil
  have h1 : c ∈ l.dropWhile isRustWs := mem_dropWhile_of_mem hc hw
  have h2 : c ∈ (l.dropWhile isRustWs).reverse := List.mem_reverse.mpr h1
  have h3 := mem_dropWhile_of_mem h2 hw
  rw [List.reverse_eq_nil_iff.mp hnil] at h3
  cases h3

/-- Every member of the right-trimmed list is a member of the list. -/
theorem mem_of_mem_trimEndChars {l : List Char} {c : Char}
    (h : c ∈ trimEndChars l) : c ∈ l := by
  rw [trimEndChars] at h
  have h1 := List.mem_reverse.mp h
  have hsplit : l.reverse.takeWhile isRustWs ++ l.reverse.dropWhile isRustWs
      = l.reverse := List.takeWhile_append_dropWhile isRustWs l.reverse
  have h2 : c ∈ l.reverse := by
    rw [← hsplit]
    exact List.mem_append_right _ h1
  exact List.mem_reverse.mp h2

/-- The last element of a list is a member. -/
theorem getLast?_mem {l : List α} {a : α} (h : l.getLast? = some a) :
    a ∈ l := by
  obtain ⟨hne, heq⟩ := List.mem_getLast?_eq_getLast
    (show a ∈ l.getLast? from by rw [Option.mem_def]; exact h)
  rw [heq]
  exact List.getLast_mem hne

/-- Sentence punctuation is not whitespace. -/
theorem sentencePunct_not_ws {c : Char} (h : isSentencePunct c = true) :
    isRustWs c = false := by
  rw [isSentencePunct] at h
  simp only [Bool.or_eq_true, decide_eq_true_eq] at h
  rcases h with ((((h | h) | h) | h) | h) | h <;> subst h <;> decide

/-- The five buffer terminators are not whitespace. -/
theorem bufferTerm_not_ws {c : Char}
    (h : (c = '.' || c = '!' || c = '?' || c = ':' || c = ';') = true) :
    isRustWs c = false := by
  simp only [Bool.or_eq_true, decide_eq_true_eq] at h
  rcases h with (((h | h) | h) | h) | h <;> subst h <;> decide

/-- The split scan emits at least one sentence when the processed text
holds any non-whitespace character. -/
theorem ssGo_ne_nil : ∀ (rest cur : List Char),
    (∃ c, c ∈ cur ++ rest ∧ isRustWs c = false) → ssGo rest cur ≠ [] := by
  intro rest
  induction rest with
  | nil =>
    rintro cur ⟨c, hc, hw⟩
    rw [List.append_nil] at hc
    have ht := trimChars_ne_nil hc hw
    simp only [ssGo, isEmpty_eq_false_of_ne_nil ht, Bool.false_eq_true,
      if_false]
    exact List.cons_ne_nil _ _
  | cons c r ih =>
    rintro cur ⟨d, hd, hw⟩
    by_cases hp : isSentencePunct c
    · have hmem : c ∈ cur ++ [c] := List.mem_append_right _ (by simp)
      have ht := trimChars_ne_nil hmem (sentencePunct_not_ws hp)
      simp only [ssGo, hp, if_true, isEmpty_eq_false_of_ne_nil ht,
        Bool.false_eq_true, if_false]
      exact List.cons_ne_nil _ _
    · simp only [ssGo, hp, Bool.false_eq_true, if_false]
      apply ih
      refine ⟨d, ?_, hw⟩
      rw [← List.append_cons]
      exact hd

/-- A buffer passing the terminator check splits into at least one
sentence. -/
theorem split_sentences_ne_nil_of_term {s : String}
    (h : endsWithSentenceTerm s = true) : split_sentences s ≠ [] := by
  rw [endsWithSentenceTerm] at h
  cases hg : (trimEndChars s.data).getLast? with
  | none => rw [hg] at h; cases h
  | some c =>
    rw [hg] at h
    have hcl : c ∈ s.data := mem_of_mem_trimEndChars (getLast?_mem hg)
    intro hnil
    rw [split_sentences, List.map_eq_nil_iff] at hnil
    exact ssGo_ne_nil s.data [] ⟨c, by simpa using hcl, bufferTerm_not_ws h⟩
      hnil

set_option maxRecDepth 100000 in
/-- C3. On synthesize_append the new text is concatenated onto the
pending buffer and the buffer is split into sentences; if the buffer
trimmed of trailing whitespace ends with a terminator, all split
sentences are spoken and the buffer empties; otherwise with at least
two split sentences all but the last are spoken and the last is
retained; with exactly one nothing is spoken and the whole buffer is
retained. The closing conjuncts replay scenario S4: appending Hello
then world. Foo speaks Hello world. at sentence index 0 and leaves Foo
pending. -/
theorem C3_append_buffering (pending t : String) :
    (endsWithSentenceTerm (pending ++ t) = true →
      appendStep pending t = (split_sentences (pending ++ t), "")) ∧
    (endsWithSentenceTerm (pending ++ t) = false →
      2 ≤ (split_sentences (pending ++ t)).length →
      appendStep pending t = ((split_sentences (pending ++ t)).dropLast,
        (split_sentences (pending ++ t)).getLast?.getD "")) ∧
    (endsWithSentenceTerm (pending ++ t) = false →
      (split_sentences (pending ++ t)).length = 1 →
      appendStep pending t = ([], pending ++ t)) ∧
    sessionStep (fun _ => "a") bank510 (fun _ _ _ => [⟨0⟩])
      ⟨0, "", false⟩ (.synthesizeAppend "Hello " "af_heart" ⟨0⟩) =
      ([], ⟨0, "Hello ", false⟩) ∧
    sessionStep (fun _ => "a") bank510 (fun _ _ _ => [⟨0⟩])
      ⟨0, "Hello ", false⟩ (.synthesizeAppend "world. Foo" "af_heart" ⟨0⟩) =
      ([Event.wordTiming 0 [("Hello", 0, 0), ("world.", 0, 0)],
        Event.audioChunk 0 [⟨0⟩], Event.sentenceDone 0, Event.done],
       ⟨1, "Foo", false⟩) := by
  refine ⟨?_, ?_, ?_, by decide, by decide⟩
  · intro h
    have hne := split_sentences_ne_nil_of_term h
    simp only [appendStep, isEmpty_eq_false_of_ne_nil hne,
      Bool.false_eq_true, if_false, h, if_true]
  · intro h hlen
    have hne : (split_sentences (pending ++ t)).isEmpty = false := by
      apply isEmpty_eq_false_of_ne_nil
      intro hnil
      rw [hnil] at hlen
      simp at hlen
    simp only [appendStep, hne, Bool.false_eq_true, if_false, h,
      if_pos (by omega : (split_sentences (pending ++ t)).length > 1)]
  · intro h hlen
    have hne : (split_sentences (pending ++ t)).isEmpty = false := by
      apply isEmpty_eq_false_of_ne_nil
      intro hnil
      rw [hnil] at hlen
      simp at hlen
    simp only [appendStep, hne, Bool.false_eq_true, if_false, h,
      if_neg (by omega : ¬(split_sentences (pending ++ t)).length > 1)]

set_option maxRecDepth 100000 in
/-- Witness for C3 on the S4 strings: appending world. Foo to the
pending Hello speaks the completed sentence and retains Foo, and a
buffer ending in a terminator is flushed whole. -/
theorem C3_append_buffering_witness :
    appendStep "Hello " "world. Foo" = (["Hello world."], "Foo") ∧
    appendStep "" "Hi." = (["Hi."], "") := by
  have h1 := (C3_append_buffering "Hello " "world. Foo").2.1
    (by decide) (by decide)
  have h2 := (C3_append_buffering "" "Hi.").1 (by decide)
  rw [h1, h2]
  refine ⟨?_, ?_⟩ <;> decide

/-- Dropping through a constantly-some extractor is a map. -/
theorem filterMap_const_some {α : Type} (idx : Nat) (l : List α) :
    List.filterMap (fun _ => some idx) l = l.map (fun _ => idx) := by
  induction l with
  | nil => rfl
  | cons a l ih => simp [List.filterMap_cons, ih]

/-- A constantly-none extractor drops everything. -/
theorem filterMap_const_none {α β : Type} (l : List α) :
    List.filterMap (fun _ => (none : Option β)) l = [] := by
  induction l with
  | nil => rfl
  | cons a l ih => simp [List.filterMap_cons, ih]

/-- Indices distribute over event concatenation. -/
theorem eventIndices_append (a b : List Event) :
    eventIndices (a ++ b) = eventIndices a ++ eventIndices b :=
  List.filterMap_append a b eventIdx

/-- Done indices distribute over event concatenation. -/
theorem doneIndices_append (a b : List Event) :
    doneIndices (a ++ b) = doneIndices a ++ doneIndices b :=
  List.filterMap_append a b _

/-- Indices of one emitted sentence group: the word-timing index, one
index per audio chunk, the completion index, then the rest. -/
theorem eventIndices_emit (idx : Nat) (words : List (String × Nat × Nat))
    (chunks : List (List F32)) (rest : List Event) :
    eventIndices (Event.wordTiming idx words ::
      (chunks.map (fun ch => Event.audioChunk idx ch) ++
        Event.sentenceDone idx :: rest)) =
    idx :: (chunks.map (fun _ => idx) ++ idx :: eventIndices rest) := by
  simp only [eventIndices, List.filterMap_cons, eventIdx,
    List.filterMap_append, List.filterMap_map, Function.comp_def]
  rw [filterMap_const_some]

/-- Done indices of one emitted sentence group: just the completion
index, then the rest. -/
theorem doneIndices_emit (idx : Nat) (words : List (String × Nat × Nat))
    (chunks : List (List F32)) (rest : List Event) :
    doneIndices (Event.wordTiming idx words ::
      (chunks.map (fun ch => Event.audioChunk idx ch) ++
        Event.sentenceDone idx :: rest)) =
    idx :: doneIndices rest := by
  simp only [doneIndices, List.filterMap_cons, doneIdx,
    List.filterMap_append, List.filterMap_map, Function.comp_def]
  rw [filterMap_const_none]
  rfl

/-- A constant list is weakly sorted. -/
theorem pairwise_le_of_all_eq {ks : List Nat} {idx : Nat}
    (h : ∀ k ∈ ks, k = idx) : List.Pairwise (· ≤ ·) ks := by
  induction ks with
  | nil => exact List.Pairwise.nil
  | cons k ks ih =>
    refine List.Pairwise.cons ?_ (ih (fun j hj => h j (List.mem_cons_of_mem _ hj)))
    intro j hj
    rw [h k (List.mem_cons_self _ _), h j (List.mem_cons_of_mem _ hj)]

/-- Weak sortedness of one emitted group followed by larger indices. -/
theorem sorted_le_emit {idx : Nat} {ks rest : List Nat}
    (hks : ∀ k ∈ ks, k = idx) (hrest : ∀ j ∈ rest, idx < j)
    (hs : List.Sorted (· ≤ ·) rest) :
    List.Sorted (· ≤ ·) (idx :: (ks ++ idx :: rest)) := by
  rw [List.sorted_cons]
  constructor
  · intro b hb
    rcases List.mem_append.mp hb with h | h
    · rw [hks b h]
    · rcases List.mem_cons.mp h with h | h
      · rw [h]
      · exact Nat.le_of_lt (hrest b h)
  · apply List.pairwise_append.mpr
    refine ⟨pairwise_le_of_all_eq hks, ?_, ?_⟩
    · rw [List.pairwise_cons]
      exact ⟨fun b hb => Nat.le_of_lt (hrest b hb), hs⟩
    · intro x hx y hy
      rw [hks x hx]
      rcases List.mem_cons.mp hy with h | h
      · rw [h]
      · exact Nat.le_of_lt (hrest y h)

/-- Bounds and order of the indices the per-sentence loop emits: the
counter only grows, every emitted index lies in the consumed interval,
indices are weakly sorted in emission order, and completion indices are
strictly sorted. -/
theorem hsGo_spec (phonOr : String → String) (bank : VoiceBank)
    (infer : List Int → List F32 → F32 → List F32)
    (voice : String) (speed : F32) (stopped : Bool) :
    ∀ (ss : List String) (counter : Nat),
    counter ≤ (hsGo phonOr bank infer voice speed stopped ss counter).2 ∧
    (∀ i ∈ eventIndices
        (hsGo phonOr bank infer voice speed stopped ss counter).1,
      counter ≤ i ∧
        i < (hsGo phonOr bank infer voice speed stopped ss counter).2) ∧
    List.Sorted (· ≤ ·) (eventIndices
      (hsGo phonOr bank infer voice speed stopped ss counter).1) ∧
    (∀ i ∈ doneIndices
        (hsGo phonOr bank infer voice speed stopped ss counter).1,
      counter ≤ i ∧
        i < (hsGo phonOr bank infer voice speed stopped ss counter).2) ∧
    List.Sorted (· < ·) (doneIndices
      (hsGo phonOr bank infer voice speed stopped ss counter).1) := by
  intro ss
  induction ss with
  | nil =>
    intro counter
    simp [hsGo, eventIndices, doneIndices, eventIdx, doneIdx,
      List.filterMap_cons]
  | cons s rest ih =>
    intro counter
    by_cases hstop : stopped = true
    · have heq : hsGo phonOr bank infer voice speed stopped (s :: rest)
          counter = ([], counter + 1) := by
        simp [hsGo, hstop]
      rw [heq]
      simp [eventIndices, doneIndices]
    · have hstop' : stopped = false := by
        revert hstop; cases stopped <;> simp
      by_cases hph : (phonOr s).data.isEmpty = true
      · have heq : hsGo phonOr bank infer voice speed stopped (s :: rest)
            counter =
            hsGo phonOr bank infer voice speed stopped rest (counter + 1) := by
          simp [hsGo, hstop', hph]
        rw [heq]
        obtain ⟨h1, h2, h3, h4, h5⟩ := ih (counter + 1)
        refine ⟨by omega, ?_, h3, ?_, h5⟩
        · intro i hi
          exact ⟨by have := (h2 i hi).1; omega, (h2 i hi).2⟩
        · intro i hi
          exact ⟨by have := (h4 i hi).1; omega, (h4 i hi).2⟩
      · cases hsynth : synthesize bank infer (phonOr s) voice speed with
        | error e =>
          have heq : hsGo phonOr bank infer voice speed stopped (s :: rest)
              counter = ([Event.errorMsg], counter + 1) := by
            simp [hsGo, hstop', hph, hsynth]
          rw [heq]
          simp [eventIndices, doneIndices, eventIdx, doneIdx,
            List.filterMap_cons]
        | ok audio =>
          by_cases haud : audio.isEmpty = true
          · have heq : hsGo phonOr bank infer voice speed stopped (s :: rest)
                counter =
                hsGo phonOr bank infer voice speed stopped rest
                  (counter + 1) := by
              simp [hsGo, hstop', hph, hsynth, haud]
            rw [heq]
            obtain ⟨h1, h2, h3, h4, h5⟩ := ih (counter + 1)
            refine ⟨by omega, ?_, h3, ?_, h5⟩
            · intro i hi
              exact ⟨by have := (h2 i hi).1; omega, (h2 i hi).2⟩
            · intro i hi
              exact ⟨by have := (h4 i hi).1; omega, (h4 i hi).2⟩
          · have heq : hsGo phonOr bank infer voice speed stopped (s :: rest)
                counter =
                (Event.wordTiming counter
                    (estimate_word_timings s (phonOr s) audio.length 24000) ::
                  ((chunkAudio audio).map
                      (fun ch => Event.audioChunk counter ch) ++
                    Event.sentenceDone counter ::
                      (hsGo phonOr bank infer voice speed stopped rest
                        (counter + 1)).1),
                 (hsGo phonOr bank infer voice speed stopped rest
                   (counter + 1)).2) := by
              simp [hsGo, hstop', hph, hsynth, haud]
            rw [heq]
            obtain ⟨h1, h2, h3, h4, h5⟩ := ih (counter + 1)
            refine ⟨by simp only []; omega, ?_, ?_, ?_, ?_⟩
            · intro i hi
              rw [eventIndices_emit] at hi
              rcases List.mem_cons.mp hi with h | h
              · exact ⟨by omega, by simp only []; omega⟩
              rcases List.mem_append.mp h with h | h
              · obtain ⟨ch, _, hcheq⟩ := List.mem_map.mp h
                have hieq : i = counter := hcheq.symm
                exact ⟨by omega, by simp only []; omega⟩
              rcases List.mem_cons.mp h with h | h
              · exact ⟨by omega, by simp only []; omega⟩
              · exact ⟨by have := (h2 i h).1; omega, (h2 i h).2⟩
            · rw [eventIndices_emit]
              apply sorted_le_emit
              · intro k hk
                obtain ⟨ch, _, hcheq⟩ := List.mem_map.mp hk
                exact hcheq.symm
              · intro j hj
                have := (h2 j hj).1
                omega
              · exact h3
            · intro i hi
              rw [doneIndices_emit] at hi
              rcases List.mem_cons.mp hi with h | h
              · exact ⟨by omega, by simp only []; omega⟩
              · exact ⟨by have := (h4 i h).1; omega, (h4 i h).2⟩
            · rw [doneIndices_emit, List.sorted_cons]
              refine ⟨?_, h5⟩
              intro b hb
              have := (h4 b hb).1
              omega

/-- One append step: the counter only grows, emitted indices lie in the
consumed interval, indices are weakly sorted, completion indices are
strictly sorted, and the stop latch is unchanged. -/
theorem stepAppend_spec (phonOr : String → String) (bank : VoiceBank)
    (infer : List Int → List F32 → F32 → List F32)
    (voice : String) (speed : F32) (st : SessState) (t : String) :
    st.counter ≤ (sessionStep phonOr bank infer st
      (.synthesizeAppend t voice speed)).2.counter ∧
    (∀ i ∈ eventIndices (sessionStep phonOr bank infer st
        (.synthesizeAppend t voice speed)).1,
      st.counter ≤ i ∧ i < (sessionStep phonOr bank infer st
        (.synthesizeAppend t voice speed)).2.counter) ∧
    List.Sorted (· ≤ ·) (eventIndices (sessionStep phonOr bank infer st
      (.synthesizeAppend t voice speed)).1) ∧
    (∀ i ∈ doneIndices (sessionStep phonOr bank infer st
        (.synthesizeAppend t voice speed)).1,
      st.counter ≤ i ∧ i < (sessionStep phonOr bank infer st
        (.synthesizeAppend t voice speed)).2.counter) ∧
    List.Sorted (· < ·) (doneIndices (sessionStep phonOr bank infer st
      (.synthesizeAppend t voice speed)).1) ∧
    (sessionStep phonOr bank infer st
      (.synthesizeAppend t voice speed)).2.stopped = st.stopped := by
  by_cases hsp : (appendStep st.pending t).1.isEmpty = true
  · have heq : sessionStep phonOr bank infer st
        (.synthesizeAppend t voice speed) =
        ([], ⟨st.counter, (appendStep st.pending t).2, st.stopped⟩) := by
      simp [sessionStep, hsp]
    rw [heq]
    simp [eventIndices, doneIndices]
  · have heq : sessionStep phonOr bank infer st
        (.synthesizeAppend t voice speed) =
        ((hsGo phonOr bank infer voice speed st.stopped
            (split_sentences (joinSpace (appendStep st.pending t).1))
            st.counter).1,
         ⟨(hsGo phonOr bank infer voice speed st.stopped
            (split_sentences (joinSpace (appendStep st.pending t).1))
            st.counter).2,
          (appendStep st.pending t).2, st.stopped⟩) := by
      simp [sessionStep, hsp]
    rw [heq]
    obtain ⟨h1, h2, h3, h4, h5⟩ := hsGo_spec phonOr bank infer voice speed
      st.stopped (split_sentences (joinSpace (appendStep st.pending t).1))
      st.counter
    exact ⟨h1, h2, h3, h4, h5, rfl⟩

/-- Across a whole sequence of appends: the counter only grows, emitted
indices lie in the consumed interval, indices are weakly sorted, and
completion indices are strictly sorted. -/
theorem runAppends_spec (phonOr : String → String) (bank : VoiceBank)
    (infer : List Int → List F32 → F32 → List F32)
    (voice : String) (speed : F32) :
    ∀ (texts : List String) (st : SessState),
    st.counter ≤
      (runAppends phonOr bank infer voice speed st texts).2.counter ∧
    (∀ i ∈ eventIndices
        (runAppends phonOr bank infer voice speed st texts).1,
      st.counter ≤ i ∧
        i < (runAppends phonOr bank infer voice speed st texts).2.counter) ∧
    List.Sorted (· ≤ ·) (eventIndices
      (runAppends phonOr bank infer voice speed st texts).1) ∧
    (∀ i ∈ doneIndices
        (runAppends phonOr bank infer voice speed st texts).1,
      st.counter ≤ i ∧
        i < (runAppends phonOr bank infer voice speed st texts).2.counter) ∧
    List.Sorted (· < ·) (doneIndices
      (runAppends phonOr bank infer voice speed st texts).1) := by
  intro texts
  induction texts with
  | nil =>
    intro st
    simp [runAppends, eventIndices, doneIndices]
  | cons t ts ih =>
    intro st
    have heq1 : (runAppends phonOr bank infer voice speed st (t :: ts)).1 =
        (sessionStep phonOr bank infer st
            (.synthesizeAppend t voice speed)).1 ++
          (runAppends phonOr bank infer voice speed
            (sessionStep phonOr bank infer st
              (.synthesizeAppend t voice speed)).2 ts).1 := by
      simp [runAppends]
    have heq2 : (runAppends phonOr bank infer voice speed st (t :: ts)).2 =
        (runAppends phonOr bank infer voice speed
           (sessionStep phonOr bank infer st
             (.synthesizeAppend t voice speed)).2 ts).2 := by
      simp [runAppends]
    rw [heq1, heq2]
    obtain ⟨s1, s2, s3, s4, s5, _⟩ :=
      stepAppend_spec phonOr bank infer voice speed st t
    obtain ⟨r1, r2, r3, r4, r5⟩ :=
      ih (sessionStep phonOr bank infer st
        (.synthesizeAppend t voice speed)).2
    refine ⟨by omega, ?_, ?_, ?_, ?_⟩
    · intro i hi
      rw [eventIndices_append] at hi
      rcases List.mem_append.mp hi with h | h
      · exact ⟨(s2 i h).1, by have := (s2 i h).2; omega⟩
      · exact ⟨by have := (r2 i h).1; omega, (r2 i h).2⟩
    · rw [eventIndices_append]
      apply List.pairwise_append.mpr
      refine ⟨s3, r3, ?_⟩
      intro x hx y hy
      have hxlt := (s2 x hx).2
      have hyge := (r2 y hy).1
      omega
    · intro i hi
      rw [doneIndices_append] at hi
      rcases List.mem_append.mp hi with h | h
      · exact ⟨(s4 i h).1, by have := (s4 i h).2; omega⟩
      · exact ⟨by have := (r4 i h).1; omega, (r4 i h).2⟩
    · rw [doneIndices_append]
      apply List.pairwise_append.mpr
      refine ⟨s5, r5, ?_⟩
      intro x hx y hy
      have hxlt := (s4 x hx).2
      have hyge := (r4 y hy).1
      omega

/-- Counterexample to C4: a stop message clears the pending-text buffer
(while leaving the counter alone), so full synthesize is not the only
message that clears the buffer. -/
theorem C4_counterexample :
    sessionStep (fun _ => "") [] (fun _ _ _ => []) ⟨5, "abc", false⟩
      ClientMsg.stop = ([Event.stoppedMsg], ⟨5, "", true⟩) ∧
    ("abc" : String) ≠ "" :=
  ⟨rfl, by decide⟩

/-- C4 amended: only a full synthesize message resets the sentence
counter to 0 (its resulting counter is independent of the prior counter
and pending buffer); neither synthesize_append nor stop nor auth resets
the counter. The pending buffer is cleared by full synthesize and also
by stop; an auth message changes nothing. -/
theorem C4_reset_clear (phonOr : String → String) (bank : VoiceBank)
    (infer : List Int → List F32 → F32 → List F32)
    (st st2 : SessState) (t v : String) (sp : F32) :
    ((sessionStep phonOr bank infer st (.synthesize t v sp)).2.pending =
        "" ∧
      (st.stopped = st2.stopped →
        (sessionStep phonOr bank infer st (.synthesize t v sp)).2.counter =
          (sessionStep phonOr bank infer st2
            (.synthesize t v sp)).2.counter)) ∧
    ((sessionStep phonOr bank infer st ClientMsg.stop).2.counter =
        st.counter ∧
      (sessionStep phonOr bank infer st ClientMsg.stop).2.pending = "") ∧
    st.counter ≤ (sessionStep phonOr bank infer st
      (.synthesizeAppend t v sp)).2.counter ∧
    (sessionStep phonOr bank infer st (.auth t)).2 = st := by
  refine ⟨⟨rfl, ?_⟩, ⟨rfl, rfl⟩, ?_, rfl⟩
  · intro hsame
    simp only [sessionStep, hsame]
  · exact (stepAppend_spec phonOr bank infer v sp st t).1

set_option maxRecDepth 100000 in
/-- Witness for amended C4: two sessions differing in counter and
buffer reach the same counter after the same full synthesize, and stop
clears a nonempty buffer. -/
theorem C4_reset_clear_witness :
    (sessionStep (fun _ => "a") bank510 (fun _ _ _ => [⟨0⟩])
        ⟨5, "x", false⟩ (.synthesize "Hi." "af_heart" ⟨0⟩)).2.counter =
      (sessionStep (fun _ => "a") bank510 (fun _ _ _ => [⟨0⟩])
        ⟨0, "", false⟩ (.synthesize "Hi." "af_heart" ⟨0⟩)).2.counter ∧
    (sessionStep (fun _ => "a") bank510 (fun _ _ _ => [⟨0⟩])
      ⟨5, "x", false⟩ ClientMsg.stop).2.pending = "" := by
  have h := C4_reset_clear (fun _ => "a") bank510 (fun _ _ _ => [⟨0⟩])
    ⟨5, "x", false⟩ ⟨0, "", false⟩ "Hi." "af_heart" ⟨0⟩
  exact ⟨h.1.2 rfl, h.2.1.2⟩

set_option maxRecDepth 100000 in
/-- Counterexample to C5: in a session whose single append carries three
sentences, the middle sentence phonemizes to the empty string; its index
is consumed but nothing is emitted for it, so the emitted indices are
0, 0, 0, 2, 2, 2 and index 1 is skipped between emitted indices 0 and 2:
the sequence is not contiguous. -/
theorem C5_counterexample :
    eventIndices (runAppends (fun s => if s = "@." then "" else "a")
      bank510 (fun _ _ _ => [⟨0⟩]) "af_heart" ⟨0⟩ ⟨0, "", false⟩
      ["A. @. B."]).1 = [0, 0, 0, 2, 2, 2] ∧
    (0 : Nat) ∈ ([0, 0, 0, 2, 2, 2] : List Nat) ∧
    (2 : Nat) ∈ ([0, 0, 0, 2, 2, 2] : List Nat) ∧
    (1 : Nat) ∉ ([0, 0, 0, 2, 2, 2] : List Nat) :=
  ⟨by decide, by decide, by decide, by decide⟩

/-- C5 amended: across any sequence of synthesize_append messages in
one session the indices attached to word_timing, audio-chunk and
sentence_done messages are weakly increasing in emission order, and the
per-sentence completion indices are strictly increasing; contiguity can
fail, because a sentence whose phonemization or audio is empty consumes
its index without emitting (and a stop latch or error consumes indices
likewise). -/
theorem C5_monotone_indices (phonOr : String → String) (bank : VoiceBank)
    (infer : List Int → List F32 → F32 → List F32)
    (voice : String) (speed : F32) (st : SessState)
    (texts : List String) :
    List.Sorted (· ≤ ·) (eventIndices
      (runAppends phonOr bank infer voice speed st texts).1) ∧
    List.Sorted (· < ·) (doneIndices
      (runAppends phonOr bank infer voice speed st texts).1) := by
  obtain ⟨_, _, h3, _, h5⟩ :=
    runAppends_spec phonOr bank infer voice speed texts st
  exact ⟨h3, h5⟩

/-- Every word produced by the whitespace split is nonempty: both
emission sites of the scan guard on a nonempty accumulator. -/
theorem splitWsGo_mem_ne_nil : ∀ (l cur : List Char),
    ∀ w ∈ splitWsGo l cur, w ≠ [] := by
  intro l
  induction l with
  | nil =>
    intro cur w hw
    rw [splitWsGo] at hw
    by_cases hc : cur.isEmpty = true
    · rw [if_pos hc] at hw
      cases hw
    · rw [if_neg hc] at hw
      rcases List.mem_singleton.mp hw with rfl
      intro hnil
      apply hc
      rw [List.reverse_eq_nil_iff] at hnil
      rw [hnil]
      rfl
  | cons c r ih =>
    intro cur w hw
    rw [splitWsGo] at hw
    by_cases hws : isRustWs c = true
    · rw [if_pos hws] at hw
      by_cases hc : cur.isEmpty = true
      · rw [if_pos hc] at hw
        exact ih [] w hw
      · rw [if_neg hc] at hw
        rcases List.mem_cons.mp hw with rfl | hw2
        · intro hnil
          apply hc
          rw [List.reverse_eq_nil_iff] at hnil
          rw [hnil]
          rfl
        · exact ih [] w hw2
    · rw [if_neg hws] at hw
      exact ih (c :: cur) w hw

/-- The timing loop emits one entry per word. -/
theorem ewtGo_length (tm tc : Nat) :
    ∀ (words : List (List Char)) (cur : Nat),
    (ewtGo tm tc words cur).length = words.length := by
  intro words
  induction words with
  | nil => intro cur; rfl
  | cons w ws ih =>
    intro cur
    rw [ewtGo, List.length_cons, List.length_cons, ih]

/-- Closed form of the timing loop: entry i carries word i, a start
equal to the running position plus the cumulative duration of the
previous words modulo 2 to the 32, and the end one word duration
further. -/
theorem ewtGo_get? (tm tc : Nat) :
    ∀ (words : List (List Char)) (cur i : Nat) (w : List Char),
    cur < 4294967296 → words.get? i = some w →
    (ewtGo tm tc words cur).get? i =
      some (⟨w⟩,
        (cur + ((words.take i).map (wordDur tm tc)).sum) % 4294967296,
        (cur + ((words.take (i + 1)).map (wordDur tm tc)).sum) %
          4294967296) := by
  intro words
  induction words with
  | nil =>
    intro cur i w hcur hw
    cases hw
  | cons w0 ws ih =>
    intro cur i w hcur hw
    cases i with
    | zero =>
      rw [List.get?_cons_zero] at hw
      cases hw
      rw [ewtGo, List.get?_cons_zero]
      rw [List.take_zero, List.take_succ_cons, List.take_zero]
      simp only [List.map_nil, List.sum_nil, Nat.add_zero, List.map_cons,
        List.sum_cons, List.sum_nil]
      rw [Nat.mod_eq_of_lt hcur]
    | succ i =>
      rw [List.get?_cons_succ] at hw
      rw [ewtGo, List.get?_cons_succ]
      have hcur2 : (cur + wordDur tm tc w0) % 4294967296 < 4294967296 :=
        Nat.mod_lt _ (by omega)
      rw [ih ((cur + wordDur tm tc w0) % 4294967296) i w hcur2 hw]
      rw [List.take_succ_cons, List.take_succ_cons]
      simp only [List.map_cons, List.sum_cons]
      rw [Nat.mod_add_mod, Nat.mod_add_mod]
      rw [← Nat.add_assoc, ← Nat.add_assoc]

/-- C9 amended: entry i of estimate_word_timings carries word i, a
start equal to the cumulative duration of the previous words modulo 2
to the 32 (so the first word starts at 0 ms), and an end one duration
further, where the duration of a word is the IEEE-754 binary64
computation total_ms as f64 times the f64 quotient of its UTF-8 byte
length (not its character length) over the total byte length, cast to
u32 with saturation, and total_ms is the binary64 computation S over R
times 1000 cast likewise (infinity, hence the saturated maximum, for
positive S over a zero rate). Every f64 operation rounds to nearest
with ties to even, exactly as the program computes. -/
theorem C9_word_timings (text phonemes : String) (S R : Nat)
    (i : Nat) (w : List Char)
    (hw : (splitWs text.data).get? i = some w) :
    (estimate_word_timings text phonemes S R).length =
      (splitWs text.data).length ∧
    (estimate_word_timings text phonemes S R).get? i =
      some (⟨w⟩,
        (((splitWs text.data).take i).map
          (wordDur (totalMsOf S R)
            ((splitWs text.data).map byteLen).sum)).sum % 4294967296,
        (((splitWs text.data).take (i + 1)).map
          (wordDur (totalMsOf S R)
            ((splitWs text.data).map byteLen).sum)).sum % 4294967296) := by
  have hne : splitWs text.data ≠ [] := by
    intro h
    rw [h] at hw
    cases hw
  have hiE : (splitWs text.data).isEmpty = false :=
    isEmpty_eq_false_of_ne_nil hne
  have htc : ((splitWs text.data).map byteLen).sum ≠ 0 := by
    obtain ⟨w0, ws, hcons⟩ : ∃ w0 ws, splitWs text.data = w0 :: ws := by
      cases hsp : splitWs text.data with
      | nil => exact absurd hsp hne
      | cons a b => exact ⟨a, b, rfl⟩
    have hw0 : w0 ≠ [] := by
      apply splitWsGo_mem_ne_nil text.data []
      show w0 ∈ splitWs text.data
      rw [hcons]
      exact List.mem_cons_self _ _
    rw [hcons]
    simp only [List.map_cons, List.sum_cons]
    have hpos : 0 < byteLen w0 := by
      cases w0 with
      | nil => exact absurd rfl hw0
      | cons c cs =>
        rw [byteLen]
        simp only [List.map_cons, List.sum_cons]
        have := Char.utf8Size_pos c
        omega
    omega
  constructor
  · simp only [estimate_word_timings, hiE, Bool.false_eq_true, if_false]
    rw [if_neg htc, ewtGo_length]
  · simp only [estimate_word_timings, hiE, Bool.false_eq_true, if_false]
    rw [if_neg htc, ewtGo_get? _ _ _ 0 i w (by omega) hw]
    simp only [Nat.zero_add]

/-- Witness for amended C9 at Hello world over one second of audio:
each five-letter word receives half of the 1000 ms. The closing
conjuncts pin the binary64 double-rounding behavior at inputs where it
differs from exact rational arithmetic: 24024 samples at 24 kHz give
1000 ms (the exact value 1001 ms is not reached because 1.001 rounds
down in binary64), a 15-byte word of 22 over 22 ms gives 14 ms, and a
zero rate with positive samples saturates to the u32 maximum. -/
theorem C9_word_timings_witness :
    (estimate_word_timings "Hello world" "ph" 24000 24000).get? 1 =
      some ("world", 500, 1000) ∧
    totalMsOf 24024 24000 = 1000 ∧
    wordDur 22 22
      ['a', 'b', 'c', 'd', 'e', 'f', 'g', 'h', 'i', 'j', 'k', 'l', 'm',
        'n', 'o'] = 14 ∧
    totalMsOf 5 0 = 4294967295 := by
  have h := (C9_word_timings "Hello world" "ph" 24000 24000 1
    ['w', 'o', 'r', 'l', 'd'] (by decide)).2
  refine ⟨?_, by decide, by decide, by decide⟩
  rw [h]
  decide

/-- Counterexample to C9: the code divides by UTF-8 byte lengths, not
character lengths. In the text with one two-byte character and a
two-letter ASCII word, over 1000 ms, the first word receives 500 ms
while the character-proportional contract assigns one third of 1000. -/
theorem C9_counterexample :
    estimate_word_timings "é ab" "x" 1000 1000 =
      [("é", 0, 500), ("ab", 500, 1000)] ∧
    specCharDurationMs "é ab" 1000 1000 ['é'] = 1000 / 3 ∧
    ((500 : ℚ) ≠ 1000 / 3) := by
  refine ⟨by decide, ?_, by norm_num⟩
  rw [specCharDurationMs]
  have h3 : ((splitWs ("é ab" : String).data).map (fun v => v.length)).sum
      = 3 := by decide
  rw [h3]
  norm_num
